import Mathlib

/-!
Verification of the `vec-cell` crate: a `VecCell<T>` wrapping an
`UnsafeCell<Vec<T>>` whose public operations mutate the buffer through a
shared reference by taking a scoped exclusive view (`as_mut`) and delegating
to the corresponding `Vec`/slice operation.

The buffer is modelled as a `List T` in element order.  Operations that
panic in Rust on a bounds violation are modelled as returning `none`;
operations returning `Option<T>` in Rust keep that shape.  Mutation is
modelled by explicit state passing: a Rust `&self` method that mutates the
buffer becomes a function returning the new cell (paired with its Rust
return value where there is one).
-/

namespace VecCellModel

/- The standard-library `Vec<T>`/slice operations that `VecCell` delegates
to, modelled on lists.  These are the trusted collaborator of the crate. -/
namespace Vec

/-- `Vec::push`: append one element at the end. -/
def push (l : List T) (v : T) : List T := l ++ [v]

/-- `slice::get(i).cloned()`: a copy of the element at `i`, if in bounds. -/
def get (l : List T) (i : Nat) : Option T := l.get? i

/-- `slice::first().cloned()`. -/
def first (l : List T) : Option T := l.head?

/-- `slice::last().cloned()`. -/
def last (l : List T) : Option T := l.getLast?

/-- `Vec::pop`: remove and return the last element, or `None` if empty.
Returns the Rust return value paired with the buffer afterwards. -/
def pop (l : List T) : Option T × List T :=
  match l.getLast? with
  | none => (none, l)
  | some v => (some v, l.dropLast)

/-- `Vec::insert(i, v)`: shift `[i, len)` right and write `v` at `i`;
panics (`none`) when `i > len`. -/
def insert (l : List T) (i : Nat) (v : T) : Option (List T) :=
  if i ≤ l.length then some (l.take i ++ v :: l.drop i) else none

/-- `Vec::remove(i)`: remove and return the element at `i`, shifting
`[i+1, len)` left; panics (`none`) when `i ≥ len`. -/
def remove (l : List T) (i : Nat) : Option (T × List T) :=
  if h : i < l.length then some (l.get ⟨i, h⟩, l.take i ++ l.drop (i + 1))
  else none

/-- `Vec::drain(start..stop)`: remove the elements of the range, yielding
them in order; panics (`none`) when `start > stop` or `stop > len`.
Returns the drained elements paired with the buffer afterwards. -/
def drain (l : List T) (start stop : Nat) : Option (List T × List T) :=
  if start ≤ stop ∧ stop ≤ l.length then
    some ((l.drop start).take (stop - start), l.take start ++ l.drop stop)
  else none

end Vec

/-- `VecCell<T>`: the `Vec<T>` buffer held inside the `UnsafeCell`. -/
structure VecCell (T : Type) where
  inner : List T
deriving Repr, DecidableEq

namespace VecCell

/-- `VecCell::new()`: empty buffer. -/
def new (T : Type) : VecCell T := ⟨[]⟩

/-- `VecCell::push`, delegated to `Vec::push` through the exclusive view. -/
def push (c : VecCell T) (v : T) : VecCell T := ⟨Vec.push c.inner v⟩

/-- `VecCell::get`: `self.as_ref().get(index).cloned()`. -/
def get (c : VecCell T) (i : Nat) : Option T := Vec.get c.inner i

/-- `VecCell::first`: `self.as_ref().first().cloned()`. -/
def first (c : VecCell T) : Option T := Vec.first c.inner

/-- `VecCell::last`: `self.as_ref().last().cloned()`. -/
def last (c : VecCell T) : Option T := Vec.last c.inner

/-- `VecCell::len`: delegated `slice::len`. -/
def len (c : VecCell T) : Nat := c.inner.length

/-- `VecCell::pop`, delegated to `Vec::pop`. -/
def pop (c : VecCell T) : Option T × VecCell T :=
  ((Vec.pop c.inner).1, ⟨(Vec.pop c.inner).2⟩)

/-- `VecCell::insert`, delegated to `Vec::insert`; `none` models the panic. -/
def insert (c : VecCell T) (i : Nat) (v : T) : Option (VecCell T) :=
  (Vec.insert c.inner i v).map (⟨·⟩)

/-- `VecCell::remove`, delegated to `Vec::remove`; `none` models the panic. -/
def remove (c : VecCell T) (i : Nat) : Option (T × VecCell T) :=
  (Vec.remove c.inner i).map (fun p => (p.1, ⟨p.2⟩))

/-- `VecCell::drain_collect`: `self.as_mut().drain(range).collect()`,
returning the collected elements and the cell afterwards. -/
def drain_collect (c : VecCell T) (start stop : Nat) :
    Option (List T × VecCell T) :=
  (Vec.drain c.inner start stop).map (fun p => (p.1, ⟨p.2⟩))

/-- `From<Vec<T>> for VecCell<T>`: wrap an owned vector without copying. -/
def fromVec (v : List T) : VecCell T := ⟨v⟩

/-- `VecCell::into_inner`: consume the cell, yielding the owned vector. -/
def into_inner (c : VecCell T) : List T := c.inner

/-- A sequence of `push` calls, in order. -/
def pushAll (c : VecCell T) (vs : List T) : VecCell T := vs.foldl push c

end VecCell

theorem pushAll_inner (c : VecCell T) (vs : List T) :
    (VecCell.pushAll c vs).inner = c.inner ++ vs := by
  induction vs generalizing c with
  | nil => simp [VecCell.pushAll]
  | cons v vs ih =>
      simp only [VecCell.pushAll, List.foldl_cons] at *
      rw [ih]
      simp [VecCell.push, Vec.push]

/-- C2: pushing `v1..vn` onto an empty cell and then calling `get i` for
`i < n` returns a copy of the `i`-th pushed value (zero-based). -/
theorem pushes_preserve_order (vs : List T) (i : Nat) (h : i < vs.length) :
    VecCell.get (VecCell.pushAll (VecCell.new T) vs) i = some (vs.get ⟨i, h⟩) := by
  simp [VecCell.get, Vec.get, pushAll_inner, VecCell.new, List.get?_eq_get h]

/-- C2 witness: pushing `[10, 20, 30]` then reading index 1 yields 20. -/
theorem pushes_preserve_order_witness :
    VecCell.get (VecCell.pushAll (VecCell.new Nat) [10, 20, 30]) 1 = some 20 :=
  pushes_preserve_order [10, 20, 30] 1 (by decide)

/-- C7: wrapping an owned sequence and consuming the cell again yields the
original sequence. -/
theorem from_into_roundtrip (seq : List T) :
    VecCell.into_inner (VecCell.fromVec seq) = seq := rfl

theorem take_append_cons_get? (L R : List T) (v : T) :
    (L ++ v :: R).get? L.length = some v := by
  rw [List.get?_append_right (Nat.le_refl _)]
  simp

theorem vec_insert_remove (l : List T) (i : Nat) (v : T) (h : i ≤ l.length) :
    Vec.insert l i v = some (l.take i ++ v :: l.drop i) ∧
    Vec.remove (l.take i ++ v :: l.drop i) i = some (v, l) := by
  have hlen : (l.take i).length = i := by
    simpa using Nat.min_eq_left h
  have hlt : i < (l.take i ++ v :: l.drop i).length := by
    rw [List.length_append, hlen]
    simp [Nat.lt_succ_of_le, Nat.le_add_right]
  have hget : (l.take i ++ v :: l.drop i).get ⟨i, hlt⟩ = v := by
    have h2 := take_append_cons_get? (l.take i) (l.drop i) v
    rw [hlen] at h2
    rw [← Option.some_inj, ← List.get?_eq_get hlt, h2]
  have htake : (l.take i ++ v :: l.drop i).take i = l.take i :=
    List.take_left' hlen
  have hdrop : (l.take i ++ v :: l.drop i).drop (i + 1) = l.drop i := by
    have h3 : ((l.take i ++ v :: l.drop i)).drop ((l.take i).length + 1) =
        (v :: l.drop i).drop 1 := List.drop_append 1
    rw [hlen] at h3
    simpa using h3
  constructor
  · unfold Vec.insert
    rw [if_pos h]
  · unfold Vec.remove
    rw [dif_pos hlt]
    rw [hget, htake, hdrop, List.take_append_drop]

/-- C3: for any cell state `s` and `i ≤ length s`, `insert i v` succeeds and
an immediately following `remove i` returns `v` and restores `s`. -/
theorem insert_remove_inverse (c : VecCell T) (i : Nat) (v : T)
    (h : i ≤ c.len) :
    ∃ c' : VecCell T, VecCell.insert c i v = some c' ∧
      VecCell.remove c' i = some (v, c) := by
  obtain ⟨h1, h2⟩ := vec_insert_remove c.inner i v h
  refine ⟨⟨c.inner.take i ++ v :: c.inner.drop i⟩, ?_, ?_⟩
  · simp [VecCell.insert, h1]
  · simp [VecCell.remove, h2]

/-- C3 witness: inserting 9 at index 1 of `[4, 5, 6]` then removing index 1
returns 9 and restores `[4, 5, 6]`. -/
theorem insert_remove_inverse_witness :
    ∃ c' : VecCell Nat, VecCell.insert ⟨[4, 5, 6]⟩ 1 9 = some c' ∧
      VecCell.remove c' 1 = some (9, ⟨[4, 5, 6]⟩) :=
  insert_remove_inverse ⟨[4, 5, 6]⟩ 1 9 (by decide)

/-- C5: `get` out of bounds returns `none` and never panics; `remove` at
`i ≥ len` panics; `insert` at `i > len` panics, and `insert` at `i = len`
is exactly `push`. -/
theorem bounds_behaviour (c : VecCell T) (i : Nat) (v : T) :
    (c.len ≤ i → VecCell.get c i = none) ∧
    (c.len ≤ i → VecCell.remove c i = none) ∧
    (c.len < i → VecCell.insert c i v = none) ∧
    VecCell.insert c c.len v = some (VecCell.push c v) := by
  refine ⟨?_, ?_, ?_, ?_⟩
  · intro h
    simp [VecCell.get, Vec.get, List.get?_eq_none, VecCell.len] at *
    exact h
  · intro h
    simp [VecCell.remove, Vec.remove, VecCell.len] at *
    omega
  · intro h
    simp [VecCell.insert, Vec.insert, VecCell.len] at *
    omega
  · simp [VecCell.insert, Vec.insert, VecCell.len, VecCell.push, Vec.push]

/-- C5 witness: on the cell `[7]`, `get 3 = none`, `remove 3` panics,
`insert 3` panics, and `insert` at index 1 equals `push`. -/
theorem bounds_behaviour_witness :
    VecCell.get (⟨[7]⟩ : VecCell Nat) 3 = none ∧
    VecCell.remove (⟨[7]⟩ : VecCell Nat) 3 = none ∧
    VecCell.insert (⟨[7]⟩ : VecCell Nat) 3 0 = none ∧
    VecCell.insert (⟨[7]⟩ : VecCell Nat) 1 0 =
      some (VecCell.push ⟨[7]⟩ 0) := by
  have h := bounds_behaviour (⟨[7]⟩ : VecCell Nat) 3 0
  have h1 := bounds_behaviour (⟨[7]⟩ : VecCell Nat) 1 0
  exact ⟨h.1 (by decide), h.2.1 (by decide), h.2.2.1 (by decide), h1.2.2.2⟩

/-- C6: on an empty cell, `pop`, `first` and `last` all return the absent
result (and `pop` leaves the cell unchanged); on a non-empty cell, `pop`
removes and returns the last element. -/
theorem empty_absent_and_pop (c : VecCell T) :
    VecCell.pop (VecCell.new T) = (none, VecCell.new T) ∧
    VecCell.first (VecCell.new T) = none ∧
    VecCell.last (VecCell.new T) = none ∧
    (∀ h : c.inner ≠ [],
      VecCell.pop c = (some (c.inner.getLast h), ⟨c.inner.dropLast⟩) ∧
      c.inner.dropLast ++ [c.inner.getLast h] = c.inner) := by
  refine ⟨rfl, rfl, rfl, fun h => ⟨?_, List.dropLast_append_getLast h⟩⟩
  simp [VecCell.pop, Vec.pop, List.getLast?_eq_getLast c.inner h]

/-- C6 witness: instantiated at the empty cell and at `[1, 2]`, whose `pop`
returns 2 and leaves `[1]`. -/
theorem empty_absent_and_pop_witness :
    VecCell.pop (VecCell.new Nat) = (none, VecCell.new Nat) ∧
    VecCell.pop (⟨[1, 2]⟩ : VecCell Nat) = (some 2, ⟨[1]⟩) := by
  have h := empty_absent_and_pop (⟨[1, 2]⟩ : VecCell Nat)
  have h2 := (h.2.2.2 (by decide)).1
  exact ⟨h.1, by simpa using h2⟩

/-- C4: for `start ≤ stop ≤ len`, `drain_collect (start..stop)` returns
exactly the elements originally at positions `start..stop` in original
order, and afterwards the cell holds the original sequence with that range
excised: positions below `start` are unchanged and positions from `start`
on hold the elements shifted left by the drained count. -/
theorem drain_collect_complete (c : VecCell T) (start stop : Nat)
    (h1 : start ≤ stop) (h2 : stop ≤ c.len) :
    ∃ (out : List T) (c' : VecCell T),
      VecCell.drain_collect c start stop = some (out, c') ∧
      out.length = stop - start ∧
      (∀ j, j < stop - start → out.get? j = c.inner.get? (start + j)) ∧
      (∀ j, j < start → c'.inner.get? j = c.inner.get? j) ∧
      (∀ j, start ≤ j → c'.inner.get? j = c.inner.get? (j + (stop - start))) := by
  refine ⟨(c.inner.drop start).take (stop - start),
    ⟨c.inner.take start ++ c.inner.drop stop⟩, ?_, ?_, ?_, ?_, ?_⟩
  · simp only [VecCell.drain_collect, Vec.drain]
    rw [if_pos ⟨h1, h2⟩]
    rfl
  · simp [VecCell.len] at h2 ⊢
    omega
  · intro j hj
    rw [List.get?_take hj, List.get?_drop]
  · intro j hj
    have hjlen : j < (c.inner.take start).length := by
      simp [VecCell.len] at h2 ⊢
      omega
    rw [List.get?_append hjlen, List.get?_take hj]
  · intro j hj
    have hlen : (c.inner.take start).length = start := by
      simp [VecCell.len] at h2 ⊢
      omega
    have hle : (c.inner.take start).length ≤ j := by rw [hlen]; exact hj
    rw [List.get?_append_right hle, hlen, List.get?_drop]
    congr 1
    omega

/-- C4 witness: draining `1..3` from `[0, 1, 2, 3]` yields `[1, 2]` and
leaves a cell whose positions read `0, 3, none`. -/
theorem drain_collect_complete_witness :
    ∃ (out : List Nat) (c' : VecCell Nat),
      VecCell.drain_collect ⟨[0, 1, 2, 3]⟩ 1 3 = some (out, c') ∧
      out.length = 3 - 1 ∧
      (∀ j, j < 3 - 1 → out.get? j = ([0, 1, 2, 3] : List Nat).get? (1 + j)) ∧
      (∀ j, j < 1 → c'.inner.get? j = ([0, 1, 2, 3] : List Nat).get? j) ∧
      (∀ j, 1 ≤ j →
        c'.inner.get? j = ([0, 1, 2, 3] : List Nat).get? (j + (3 - 1))) :=
  drain_collect_complete ⟨[0, 1, 2, 3]⟩ 1 3 (by decide) (by decide)

/- The cursor produced by `VecCell::iter` (`Iter<'a, T>` in `iter.rs`): a
shared reference to the cell plus a position.  Because other holders of
shared references may mutate the cell between steps, an execution is
modelled against a step-indexed family `bufs : Nat → List T`, where
`bufs k` is the buffer's contents at the moment of the `k`-th call to
`next` (counting from 0). -/
structure Iter where
  idx : Nat
deriving Repr, DecidableEq

/-- `Iter::new`: position 0. -/
def iterNew : Iter := ⟨0⟩

/-- One call to `Iter::next`: read `self.vc.get(self.idx)` from the buffer
as it is right now, then increment `self.idx` — also when the read was
out of bounds. -/
def iterNext (buf : List T) (it : Iter) : Option T × Iter :=
  (Vec.get buf it.idx, ⟨it.idx + 1⟩)

/-- The cursor state just before the `k`-th call to `next`. -/
def iterStateAt (bufs : Nat → List T) : Nat → Iter
  | 0 => iterNew
  | k + 1 => (iterNext (bufs k) (iterStateAt bufs k)).2

/-- The value returned by the `k`-th call to `next`. -/
def iterOutAt (bufs : Nat → List T) (k : Nat) : Option T :=
  (iterNext (bufs k) (iterStateAt bufs k)).1

theorem iterStateAt_idx (bufs : Nat → List T) (k : Nat) :
    (iterStateAt bufs k).idx = k := by
  induction k with
  | zero => rfl
  | succ k ih => simp [iterStateAt, iterNext, ih]

theorem iterOutAt_eq (bufs : Nat → List T) (k : Nat) :
    iterOutAt bufs k = (bufs k).get? k := by
  simp [iterOutAt, iterNext, Vec.get, iterStateAt_idx]

/-- C8: the `k`-th call to `next` returns a copy of exactly the element at
position `k` of the buffer as it exists at that moment (so the cursor
observes mutations made between steps); in particular, when the buffer
never changes, the cursor yields every element in index order and then the
absent result. -/
theorem iter_clones_current_position (bufs : Nat → List T) (s : List T)
    (k : Nat) :
    iterOutAt bufs k = (bufs k).get? k ∧
    (∀ i, (h : i < s.length) →
      iterOutAt (fun _ => s) i = some (s.get ⟨i, h⟩)) ∧
    iterOutAt (fun _ => s) s.length = none := by
  refine ⟨iterOutAt_eq bufs k, fun i h => ?_, ?_⟩
  · rw [iterOutAt_eq, List.get?_eq_get h]
  · rw [iterOutAt_eq, List.get?_eq_none]

/-- C8 witness: against buffers that change between steps
(`[5]` at step 0, `[5, 6]` at step 1), the cursor yields 5 then 6; against
the fixed buffer `[8, 9]` it yields 9 at position 1 and none at position 2. -/
theorem iter_clones_current_position_witness :
    iterOutAt (fun kk => if kk = 0 then [5] else [5, 6]) 1 =
      ((if (1 : Nat) = 0 then [5] else [5, 6]) : List Nat).get? 1 ∧
    iterOutAt (fun _ => ([8, 9] : List Nat)) 1 = some 9 ∧
    iterOutAt (fun _ => ([8, 9] : List Nat)) 2 = none := by
  have h := iter_clones_current_position
    (fun kk => if kk = 0 then ([5] : List Nat) else [5, 6]) [8, 9] 1
  exact ⟨h.1, h.2.1 1 (by decide), h.2.2⟩

/-- C10: every call to `next` increments the position by exactly one, also
when it returned the absent result; hence if the cursor is advanced to
position `k` past the end of a buffer `s` and the cell is then replaced by
a longer buffer, the positions in `[length s, k)` were consumed while the
buffer was still `s` and returned the absent result — those elements are
never yielded by this cursor. -/
theorem iter_position_always_increments (bufs : Nat → List T)
    (s s' : List T) (k : Nat) :
    (∀ j, (iterStateAt bufs (j + 1)).idx = (iterStateAt bufs j).idx + 1) ∧
    (∀ i, s.length ≤ i → i < k →
      iterOutAt (fun j => if j < k then s else s') i = none) := by
  constructor
  · intro j
    simp [iterStateAt_idx]
  · intro i hlen hik
    rw [iterOutAt_eq]
    simp only [if_pos hik]
    rw [List.get?_eq_none]
    exact hlen

/-- C10 witness: stepping a cursor three times over the one-element buffer
`[4]` and then switching to `[4, 7, 8]`: position 2 (between the old
length 1 and the advanced position 3) yields the absent result even though
`[4, 7, 8]` has an element there, and the position after each step grew by
one. -/
theorem iter_position_always_increments_witness :
    (iterStateAt (fun j => if j < 3 then [4] else ([4, 7, 8] : List Nat))
      3).idx =
      (iterStateAt (fun j => if j < 3 then [4] else ([4, 7, 8] : List Nat))
        2).idx + 1 ∧
    iterOutAt (fun j => if j < 3 then [4] else ([4, 7, 8] : List Nat)) 2 =
      none := by
  have h := iter_position_always_increments
    (fun j => if j < 3 then ([4] : List Nat) else [4, 7, 8]) [4] [4, 7, 8] 3
  exact ⟨h.1 2, h.2 2 (by decide) (by decide)⟩

/- Clone independence is a statement about two distinct allocations, so it
is modelled against a heap of separately allocated buffers; a cell handle
is an index into the heap. -/

/-- The allocated `UnsafeCell<Vec<T>>` buffers, by allocation order. -/
abbrev Heap (T : Type) : Type := List (List T)

/-- Read the buffer owned by the cell at handle `i`. -/
def readCell (h : Heap T) (i : Nat) : Option (List T) := h.get? i

/-- `Clone for VecCell`: `UnsafeCell::new(self.as_ref().clone())` — a fresh
allocation holding a deep copy of cell `i`'s buffer; returns the new heap
and the handle of the clone. -/
def cloneCell (h : Heap T) (i : Nat) : Heap T × Nat :=
  (h ++ [(h.get? i).getD []], h.length)

/-- `VecCell::push` invoked through the cell at handle `i`: only that
cell's own buffer is written. -/
def pushCell (h : Heap T) (i : Nat) (v : T) : Heap T :=
  h.set i (Vec.push ((h.get? i).getD []) v)

/-- C9: after `b = a.clone()`, the clone lives in a fresh allocation with
equal contents, a `push` through `a` leaves `b`'s observed contents
unchanged, and a `push` through `b` leaves `a`'s observed contents
unchanged. -/
theorem clone_independence (h : Heap T) (i : Nat) (v : T)
    (hi : i < h.length) :
    (cloneCell h i).2 ≠ i ∧
    readCell (cloneCell h i).1 (cloneCell h i).2 = readCell h i ∧
    readCell (pushCell (cloneCell h i).1 i v) (cloneCell h i).2 =
      readCell (cloneCell h i).1 (cloneCell h i).2 ∧
    readCell (pushCell (cloneCell h i).1 (cloneCell h i).2 v) i =
      readCell (cloneCell h i).1 i := by
  have hne : h.length ≠ i := Nat.ne_of_gt hi
  have hread : readCell (cloneCell h i).1 (cloneCell h i).2 =
      some ((h.get? i).getD []) := by
    have h2 := take_append_cons_get? h ([] : Heap T) ((h.get? i).getD [])
    simp [readCell, cloneCell, h2]
  refine ⟨hne, ?_, ?_, ?_⟩
  · rw [hread, readCell, List.get?_eq_get hi]
    simp [List.get?_eq_get hi]
  · simp only [pushCell, readCell, cloneCell]
    exact List.get?_set_ne _ _ hne.symm
  · simp only [pushCell, readCell, cloneCell]
    exact List.get?_set_ne _ _ hne

/-- C9 witness: in a heap holding one cell with buffer `[1]`, cloning it
and pushing 2 through either handle leaves the other handle's contents
unchanged. -/
theorem clone_independence_witness :
    (cloneCell ([[1]] : Heap Nat) 0).2 ≠ 0 ∧
    readCell (cloneCell ([[1]] : Heap Nat) 0).1
      (cloneCell ([[1]] : Heap Nat) 0).2 = readCell [[1]] 0 ∧
    readCell (pushCell (cloneCell ([[1]] : Heap Nat) 0).1 0 2)
        (cloneCell ([[1]] : Heap Nat) 0).2 =
      readCell (cloneCell ([[1]] : Heap Nat) 0).1
        (cloneCell ([[1]] : Heap Nat) 0).2 ∧
    readCell (pushCell (cloneCell ([[1]] : Heap Nat) 0).1
        (cloneCell ([[1]] : Heap Nat) 0).2 2) 0 =
      readCell (cloneCell ([[1]] : Heap Nat) 0).1 0 :=
  clone_independence [[1]] 0 2 (by decide)

/- The aliasing discipline of the crate: the `delegate_method` macro
expands every public operation to `unsafe { self.as_mut().m(args) }` — the
exclusive view produced by `as_mut` exists for exactly that one delegated
call and is released when the expression ends, inside the same public
call.  A single-threaded, non-re-entrant execution is therefore a serial
concatenation of such acquire/release windows, never interleaved. -/

/-- Acquiring and releasing views of the buffer (`as_mut` / `as_ref` and
the ends of their scopes). -/
inductive ViewEvent
  | acquireExcl
  | releaseExcl
  | acquireShared
  | releaseShared
deriving Repr, DecidableEq

/-- The view events of one public operation: the scoped exclusive view
taken by `as_mut`, released at the end of that same call. -/
def publicOpEvents : List ViewEvent :=
  [ViewEvent.acquireExcl, ViewEvent.releaseExcl]

/-- A serial, non-re-entrant execution of `n` public operations. -/
def serialExec (n : Nat) : List ViewEvent :=
  (List.replicate n publicOpEvents).join

def liveExclStep (m : Nat) (e : ViewEvent) : Nat :=
  match e with
  | ViewEvent.acquireExcl => m + 1
  | ViewEvent.releaseExcl => m - 1
  | _ => m

def liveSharedStep (m : Nat) (e : ViewEvent) : Nat :=
  match e with
  | ViewEvent.acquireShared => m + 1
  | ViewEvent.releaseShared => m - 1
  | _ => m

/-- Number of live exclusive views after a prefix of the execution. -/
def liveExcl (es : List ViewEvent) : Nat := es.foldl liveExclStep 0

/-- Number of live shared views after a prefix of the execution. -/
def liveShared (es : List ViewEvent) : Nat := es.foldl liveSharedStep 0

theorem serialExec_succ (n : Nat) :
    serialExec (n + 1) =
      ViewEvent.acquireExcl :: ViewEvent.releaseExcl :: serialExec n := by
  simp [serialExec, publicOpEvents, List.replicate_succ]

/-- C1: every modelled public operation delegates to the equivalent
whole-buffer `Vec` operation through the exclusive view, and in a serial,
non-re-entrant execution of public operations every prefix has at most one
live exclusive view and zero live shared views (invariant I1). -/
theorem scoped_exclusive_delegation (n k : Nat) (c : VecCell T) (i : Nat)
    (v : T) :
    (VecCell.push c v).inner = Vec.push c.inner v ∧
    (VecCell.pop c).1 = (Vec.pop c.inner).1 ∧
    (VecCell.pop c).2.inner = (Vec.pop c.inner).2 ∧
    VecCell.insert c i v = (Vec.insert c.inner i v).map (⟨·⟩) ∧
    VecCell.remove c i = (Vec.remove c.inner i).map (fun p => (p.1, ⟨p.2⟩)) ∧
    liveExcl ((serialExec n).take k) ≤ 1 ∧
    liveShared ((serialExec n).take k) = 0 := by
  refine ⟨rfl, rfl, rfl, rfl, rfl, ?_⟩
  induction n generalizing k with
  | zero => simp [serialExec, liveExcl, liveShared]
  | succ n ih =>
      rw [serialExec_succ]
      match k with
      | 0 => simp [liveExcl, liveShared]
      | 1 => simp [liveExcl, liveShared, liveExclStep, liveSharedStep]
      | Nat.succ (Nat.succ k) =>
          have h := ih k
          simpa [liveExcl, liveShared, liveExclStep, liveSharedStep] using h

end VecCellModel
